import Mathlib

/-!
Verification development for the GenFlow workflow engine
(`gensphere_python_sdk/GenFlow/GenFlow.py`) and the YAML composer
(`gensphere_python_sdk/AgenticFlow/yml_compose.py`).

The Python values flowing through the engine (YAML scalars, step outputs,
parameter values) are modelled by the inductive type `Value`; YAML scalars are
restricted to strings, integers and `None`, plus sequences and mappings, which
is the fragment the engine's own scenarios exercise.  Machine floats are out of
scope.  All dictionaries are modelled as insertion-ordered association lists,
matching Python's `dict` iteration order.
-/

inductive Value where
  | vstr (s : String)
  | vint (n : Int)
  | vnull
  | vlist (xs : List Value)
  | vdict (fs : List (String × Value))

/-- First-match association-list lookup, the model of Python `dict` access
(`d[k]` / `d.get(k)`).  Stores built by the engine never hold duplicate keys,
so first-match agrees with Python semantics. -/
def alookup {α : Type} (l : List (String × α)) (k : String) : Option α :=
  match l with
  | [] => none
  | (k', v) :: rest => if k' = k then some v else alookup rest k

/-- Python `d[k] = v`: replace the value if the key is present, else append
(insertion order preserved). -/
def storeSet {α : Type} (l : List (String × α)) (k : String) (v : α) :
    List (String × α) :=
  match l with
  | [] => [(k, v)]
  | (k', v') :: rest =>
      if k' = k then (k', v) :: rest else (k', v') :: storeSet rest k v

def commaSep : List String → String
  | [] => ""
  | [s] => s
  | s :: rest => s ++ ", " ++ commaSep rest

mutual
/-- Python `repr` on the modelled value fragment (string escaping inside
`repr` is not modelled; the engine never feeds quotes back into templates). -/
def pyRepr : Value → String
  | .vstr s => "'" ++ s ++ "'"
  | .vint n => toString n
  | .vnull => "None"
  | .vlist xs => "[" ++ commaSep (pyReprList xs) ++ "]"
  | .vdict fs => "\x7b" ++ commaSep (pyReprFields fs) ++ "\x7d"

def pyReprList : List Value → List String
  | [] => []
  | v :: rest => pyRepr v :: pyReprList rest

def pyReprFields : List (String × Value) → List String
  | [] => []
  | (k, v) :: rest => ("'" ++ k ++ "': " ++ pyRepr v) :: pyReprFields rest
end

/-- Python `str`: identity on strings, `repr`-like rendering elsewhere
(`str` and `repr` agree on ints, `None`, lists and dicts). -/
def pyStr : Value → String
  | .vstr s => s
  | v => pyRepr v

/-- Python truthiness of the modelled values. -/
def pyTruthy : Value → Bool
  | .vstr s => !s.isEmpty
  | .vint n => n != 0
  | .vnull => false
  | .vlist xs => !xs.isEmpty
  | .vdict fs => !fs.isEmpty

/-- Model of `\s` of Python `re` (ASCII fragment). -/
def isPySpace (c : Char) : Bool :=
  c = ' ' || c = '\t' || c = '\n' || c = '\r' || c = '\x0b' || c = '\x0c'

/-- A character matched by `[\w_\.]` in the reference regexes (ASCII fragment
of `\w`). -/
def isRefChar (c : Char) : Bool :=
  c.isAlphanum || c = '_' || c = '.'

/-- Model of `re.match(r"^\{\{\s*([\w_\.]+)\s*\}\}$", s)` from `Node.render_params`:
the whole parameter string is a single reference expression.  Python's `$`
also matches just before one trailing newline, which the last branch keeps. -/
def simple_var_match (s : String) : Option String :=
  match s.toList with
  | '\x7b' :: '\x7b' :: rest =>
      let afterWs := rest.dropWhile isPySpace
      let nameChars := afterWs.takeWhile isRefChar
      let rest2 := (afterWs.dropWhile isRefChar).dropWhile isPySpace
      if nameChars.isEmpty then none
      else if rest2 = ['\x7d', '\x7d'] || rest2 = ['\x7d', '\x7d', '\n'] then
        some (String.mk nameChars)
      else none
  | _ => none

/-- Python `str.split` on a single separator character (`'.'` for reference
paths), structurally recursive so that concrete runs reduce definitionally. -/
def splitOnChar (c : Char) : List Char → List (List Char)
  | [] => [[]]
  | x :: rest =>
      let r := splitOnChar c rest
      if x = c then [] :: r
      else
        match r with
        | h :: t => (x :: h) :: t
        | [] => [[x]]

/-- Model of `var_name.split('.')` of the Python code. -/
def pySplitDot (s : String) : List String :=
  (splitOnChar '.' s.toList).map String.mk

/-- Model of `re.findall(r"\{\{\s*([\w_\.]+)\s*\}\}", s)` from
`Node.extract_dependencies_from_value`: all embedded reference expressions,
scanned left to right, non-overlapping, advancing one character on a failed
match attempt.  The fuel argument (any bound of at least the list's length,
as `find_refs` supplies) makes the scan structurally recursive; each step
consumes at least one character. -/
def find_refs_aux : Nat → List Char → List String
  | 0, _ => []
  | fuel + 1, l =>
      match l with
      | '\x7b' :: '\x7b' :: rest =>
          let afterWs := rest.dropWhile isPySpace
          let nameChars := afterWs.takeWhile isRefChar
          let rest2 := (afterWs.dropWhile isRefChar).dropWhile isPySpace
          (match rest2 with
          | '\x7d' :: '\x7d' :: tail =>
              if nameChars.isEmpty then find_refs_aux fuel ('\x7b' :: rest)
              else String.mk nameChars :: find_refs_aux fuel tail
          | _ => find_refs_aux fuel ('\x7b' :: rest))
      | _ :: rest => find_refs_aux fuel rest
      | [] => []

def find_refs (l : List Char) : List String :=
  find_refs_aux l.length l

/-! ## Template Resolver (`Node.render_params`) -/

/-- Navigation through the parts of a dotted reference, after the first part
has been looked up in the context: `obj = obj[part]` on dicts; attribute
access (`getattr`) on the modelled non-dict values fails, as it does in Python
for the field names the engine generates. -/
def navigate : Value → List String → Option Value
  | v, [] => some v
  | .vdict fs, p :: rest =>
      match alookup fs p with
      | some v => navigate v rest
      | none => none
  | _, _ :: _ => none

/-- Walk a dotted path (already split on `.`) from the resolution context:
the first part indexes the context dict, the remaining parts navigate the
value found. -/
def resolvePath (ctx : List (String × Value)) (parts : List String) : Option Value :=
  match parts with
  | [] => none
  | p :: rest =>
      match alookup ctx p with
      | some v => navigate v rest
      | none => none

/-- The resolution context of `Node.render_params`: outputs of finished nodes
(each node name bound to its outputs dict), then `context.update(variables)`,
so a variable of the same name shadows a node name.  First-match lookup with
the variables listed first models that precedence. -/
def buildContext (outputs : List (String × List (String × Value)))
    (vars : List (String × Value)) : List (String × Value) :=
  vars ++ outputs.map (fun p => (p.1, Value.vdict p.2))

/-- Model of `environment.getattr(obj, attribute)` for one dotted-path step
inside a Jinja2 interpolation: attribute-then-item access succeeds on a dict
holding the key; any miss (absent key, non-subscriptable value) yields the
default `jinja2.Undefined` (`none` here).  Real attributes of non-dict
Python values (e.g. string methods) are not modelled; the engine's field
names never hit them. -/
def jinjaGetattr (v : Value) (p : String) : Option Value :=
  match v with
  | .vdict fs => alookup fs p
  | _ => none

/-- The walk a compiled Jinja2 template performs along the remaining parts
of a dotted reference, with the default `Undefined` of `GenFlow.__init__`'s
plain `jinja2.Environment()`: a value that is already `Undefined` renders as
the empty string when the path ends, but any further attribute access on it
raises `UndefinedError` out of `template.render` (only `ChainableUndefined`
would keep going).  The second argument tracks the name whose resolution
produced the current `Undefined`, for the error message; messages of
mid-path misses are approximated by the same shape. -/
def jinjaWalk : Option Value → String → List String → Except String (Option Value)
  | cur, _, [] => Except.ok cur
  | some v, _, p :: rest => jinjaWalk (jinjaGetattr v p) p rest
  | none, failedName, _ :: _ =>
      Except.error ("'" ++ failedName ++ "' is undefined")

/-- Resolution of one dotted-name interpolation by the Jinja2 runtime: the
first part resolves against the render context (a miss gives `Undefined`,
not an exception), the remaining parts walk via `jinjaWalk`. -/
def jinja_resolve (ctx : List (String × Value)) :
    List String → Except String (Option Value)
  | [] => Except.ok none
  | p :: rest => jinjaWalk (alookup ctx p) p rest

/-- Jinja2 rendering of a parameter string that is not a single whole-value
reference, under the default environment of `GenFlow.__init__`: every
embedded `\x7b\x7b name(.field)* \x7d\x7d` interpolation is replaced by the Python
`str` of the resolved value; a bare undefined name prints as the empty
string, while attribute access on an undefined raises `UndefinedError`,
failing the whole render (and hence the step, caught by `run`).  Template
text outside interpolations is kept verbatim; expression forms other than
dotted names are not modelled (the engine's parameters only use dotted-name
interpolations).  The fuel argument (any bound of at least the list's
length, as `jinja_render` supplies) makes the scan structurally recursive. -/
def jinja_render_aux (ctx : List (String × Value)) :
    Nat → List Char → Except String (List Char)
  | 0, _ => Except.ok []
  | fuel + 1, l =>
      match l with
      | '\x7b' :: '\x7b' :: rest =>
          let afterWs := rest.dropWhile isPySpace
          let nameChars := afterWs.takeWhile isRefChar
          let rest2 := (afterWs.dropWhile isRefChar).dropWhile isPySpace
          (match rest2 with
          | '\x7d' :: '\x7d' :: tail =>
              if nameChars.isEmpty then
                (jinja_render_aux ctx fuel ('\x7b' :: rest)).map
                  (fun r => '\x7b' :: r)
              else
                match jinja_resolve ctx (pySplitDot (String.mk nameChars)) with
                | Except.error e => Except.error e
                | Except.ok cur =>
                    let repl :=
                      match cur with
                      | some v => (pyStr v).toList
                      | none => []
                    (jinja_render_aux ctx fuel tail).map (fun r => repl ++ r)
          | _ =>
              (jinja_render_aux ctx fuel ('\x7b' :: rest)).map
                (fun r => '\x7b' :: r))
      | c :: rest => (jinja_render_aux ctx fuel rest).map (fun r => c :: r)
      | [] => Except.ok []

def jinja_render (ctx : List (String × Value)) (l : List Char) :
    Except String (List Char) :=
  jinja_render_aux ctx l.length l

/-- Resolution of one parameter value (`Node.render_params` body of the
per-parameter loop): a string that is exactly one reference resolves to the
referenced value with its native type; any other string goes through Jinja2
rendering; non-string parameters are used as is. -/
def renderValue (ctx : List (String × Value)) (v : Value) : Except String Value :=
  match v with
  | .vstr s =>
      match simple_var_match s with
      | some name =>
          match resolvePath ctx (pySplitDot name) with
          | some v' => Except.ok v'
          | none =>
              Except.error ("Variable '" ++ name ++ "' not found in context.")
      | none =>
          match jinja_render ctx s.toList with
          | Except.error e => Except.error e
          | Except.ok r => Except.ok (.vstr (String.mk r))
  | other => Except.ok other

/-- Model of `Node.render_params`: resolve each parameter in insertion order; the first
failing parameter aborts with its error. -/
def render_params (ctx : List (String × Value))
    (params : List (String × Value)) : Except String (List (String × Value)) :=
  match params with
  | [] => Except.ok []
  | (k, v) :: rest =>
      match renderValue ctx v with
      | Except.error e => Except.error e
      | Except.ok v' =>
          match render_params ctx rest with
          | Except.error e => Except.error e
          | Except.ok rest' => Except.ok ((k, v') :: rest')

/-! ## Steps (`Node`) -/

/-- One step of a flattened flow, the fields of `node_data` that `GenFlow`
reads.  `variable_name` and `function` are `Option` because the Python dict
may lack them (access then raises `KeyError`). -/
structure NodeData where
  name : String
  type : String
  params : List (String × Value) := []
  outputs : List String := []
  variable_name : Option String := none
  /-- the `variables` mapping of a `get_variables` node (output name to
  variable name); named `variables_map` because `variables` is unusable as a
  field name here -/
  variables_map : List (String × String) := []
  function : Option String := none

/-- Model of `Node.get_produced_variables`; reading `node_data['variable_name']` on a
`set_variable` node that lacks the field raises `KeyError`, modelled as an
error. -/
def get_produced_variables (n : NodeData) : Except String (List String) :=
  if n.type = "set_variable" then
    match n.variable_name with
    | some v => Except.ok [v]
    | none => Except.error ("KeyError: 'variable_name'")
  else Except.ok []

/-- Model of `Node.extract_dependencies_from_value`: run the reference regex over
`str(value)` and keep the first dot-part of each match. -/
def extract_dependencies_from_value (v : Value) : List String :=
  (find_refs (pyStr v).toList).map (fun name => ((pySplitDot name).headD ("")))

/-- Model of `Node.get_dependencies`.  Python collects the names into a `set`; the
model keeps them as a deduplicated list (set iteration order is irrelevant to
the graph because edge insertion deduplicates and node order alone drives the
topological sort). -/
def get_dependencies (n : NodeData) : List String :=
  let fromParams := (n.params.map (fun p => extract_dependencies_from_value p.2)).join
  let extra :=
    if n.type = "get_variables" then n.variables_map.map (fun p => p.2)
    else if n.type = "set_variable" then
      match alookup n.params ("value") with
      | some v => if pyTruthy v then extract_dependencies_from_value v else []
      | none => []
    else []
  (fromParams ++ extra).dedup

/-- External capabilities consumed by `Node.execute`: the `functions` module
looked up by `importlib` (a registry from function name to a callable
returning a value), and the OpenAI chat-completions interaction of
`execute_llm_service`, which is a network collaborator outside this core and
is modelled as an oracle from the step and its resolved parameters to either
outputs or a raised error. -/
structure Env where
  funcs : String → Option (List (String × Value) → Except String Value)
  llm : NodeData → List (String × Value) → Except String (List (String × Value))

/-- Python `set(xs) == set(ys)` on key lists. -/
def sameKeySet (xs ys : List String) : Bool :=
  xs.all (fun x => ys.contains x) && ys.all (fun y => xs.contains y)

/-- Model of `Node.execute_function_call`: resolve the function, call it, require a
dict result whose key set equals the declared outputs. -/
def execute_function_call (env : Env) (n : NodeData)
    (params : List (String × Value)) : Except String (List (String × Value)) :=
  match n.function with
  | none => Except.error ("KeyError: 'function'")
  | some fname =>
      match env.funcs fname with
      | none =>
          Except.error ("Function '" ++ fname ++ "' not found in 'functions' module.")
      | some f =>
          match f params with
          | Except.error e => Except.error e
          | Except.ok (.vdict fields) =>
              if sameKeySet (fields.map (fun p => p.1)) n.outputs then
                Except.ok fields
              else
                Except.error ("Function '" ++ fname ++
                  "' outputs do not match expected outputs.")
          | Except.ok _ =>
              Except.error ("Function '" ++ fname ++
                "' should return a dictionary of outputs.")

/-- Model of `Node.execute_set_variable`: store `params['value']` under the node's
`variable_name` and return no outputs. -/
def execute_set_variable (n : NodeData) (params : List (String × Value))
    (vars : List (String × Value)) :
    Except String (List (String × Value) × List (String × Value)) :=
  match n.variable_name with
  | none => Except.error ("KeyError: 'variable_name'")
  | some vname =>
      match alookup params ("value") with
      | none => Except.error ("KeyError: 'value'")
      | some v => Except.ok ([], storeSet vars vname v)

/-- Model of `Node.execute_get_variable`: `variables.get(name)` returns `None` both
for an absent variable and for a stored `None`, and the `is None` check then
raises "not found" in either case. -/
def execute_get_variable (n : NodeData) (vars : List (String × Value)) :
    Except String (List (String × Value)) :=
  match n.variable_name with
  | none => Except.error ("KeyError: 'variable_name'")
  | some vname =>
      match alookup vars vname with
      | some .vnull => Except.error ("Variable '" ++ vname ++ "' not found.")
      | some v => Except.ok [(n.outputs.headD ("value"), v)]
      | none => Except.error ("Variable '" ++ vname ++ "' not found.")

/-- Model of `Node.execute_get_variables`: one output per entry of the `variables`
mapping, failing on the first absent (or stored-`None`) variable. -/
def execute_get_variables (vars : List (String × Value)) :
    List (String × String) → Except String (List (String × Value))
  | [] => Except.ok []
  | (outName, vname) :: rest =>
      match alookup vars vname with
      | some .vnull => Except.error ("Variable '" ++ vname ++ "' not found.")
      | none => Except.error ("Variable '" ++ vname ++ "' not found.")
      | some v =>
          match execute_get_variables vars rest with
          | Except.error e => Except.error e
          | Except.ok out => Except.ok ((outName, v) :: out)

/-- Model of `Node.execute`: dispatch by the step's type string; an unknown type
raises `NotImplementedError`.  The result pairs the outputs dict with the
(possibly updated) variable store, since `execute_set_variable` mutates the
flow's store. -/
def execute (env : Env) (n : NodeData) (params : List (String × Value))
    (vars : List (String × Value)) :
    Except String (List (String × Value) × List (String × Value)) :=
  if n.type = "function_call" then
    (execute_function_call env n params).map (fun o => (o, vars))
  else if n.type = "llm_service" then
    (env.llm n params).map (fun o => (o, vars))
  else if n.type = "set_variable" then
    execute_set_variable n params vars
  else if n.type = "get_variable" then
    (execute_get_variable n vars).map (fun o => (o, vars))
  else if n.type = "get_variables" then
    (execute_get_variables vars n.variables_map).map (fun o => (o, vars))
  else
    Except.error ("Type '" ++ n.type ++ "' not implemented for node '" ++
      n.name ++ "'.")

/-! ## Dependency graph (`GenFlow.build_graph`, `networkx.DiGraph`) -/

/-- The directed graph: node names in insertion order, edges in insertion
order.  `networkx.DiGraph` ignores re-insertion of an existing node or edge,
which `addNode`/`addEdge` reproduce. -/
structure Graph where
  nodes : List String := []
  edges : List (String × String) := []

def addNode (g : Graph) (n : String) : Graph :=
  if n ∈ g.nodes then g else { g with nodes := g.nodes ++ [n] }

def addEdge (g : Graph) (u v : String) : Graph :=
  let g1 := addNode (addNode g u) v
  if (u, v) ∈ g1.edges then g1 else { g1 with edges := g1.edges ++ [(u, v)] }

/-- A node is ready when no edge reaches it from a still-remaining node. -/
def ready (edges : List (String × String)) (rem : List String) (n : String) : Bool :=
  !(edges.any (fun e => e.2 = n && rem.contains e.1))

/-- Kahn's algorithm as `nx.topological_sort` performs it: repeatedly emit
the first remaining node (insertion order — §4.6's declaration-order
tie-break) with no predecessor among the remaining nodes; if none is ready
while nodes remain, the graph has a cycle (`NetworkXUnfeasible`).  The fuel
argument makes the loop structurally recursive; any fuel of at least
`rem.length` is enough. -/
def topoAux (edges : List (String × String)) : Nat → List String → Option (List String)
  | 0, rem => if rem.isEmpty then some [] else none
  | fuel + 1, rem =>
      match rem.find? (ready edges rem) with
      | some n => (topoAux edges fuel (rem.erase n)).map (fun l => n :: l)
      | none => if rem.isEmpty then some [] else none

def topologicalSort (g : Graph) : Option (List String) :=
  topoAux g.edges g.nodes.length g.nodes

/-- The edge-insertion loop of `GenFlow.build_graph` for one node: each
dependency that names a node becomes a direct edge, one that names a variable
becomes an edge from the variable's producer node, and anything else is a
fatal undefined-reference error. -/
def addDepEdges (names : List String) (producers : List (String × String))
    (nodeName : String) (g : Graph) : List String → Except String Graph
  | [] => Except.ok g
  | dep :: rest =>
      if dep ∈ names then
        addDepEdges names producers nodeName (addEdge g dep nodeName) rest
      else
        match alookup producers dep with
        | some producer =>
            addDepEdges names producers nodeName (addEdge g producer nodeName) rest
        | none =>
            Except.error ("Node '" ++ nodeName ++
              "' depends on undefined node or variable '" ++ dep ++ "'.")

def addAllEdges (names : List String) (producers : List (String × String))
    (g : Graph) : List NodeData → Except String Graph
  | [] => Except.ok g
  | n :: rest =>
      match addDepEdges names producers n.name g (get_dependencies n) with
      | Except.error e => Except.error e
      | Except.ok g' => addAllEdges names producers g' rest

/-- The graph-construction phase of `GenFlow.build_graph`: add every node in
declaration order, then derive every edge. -/
def deriveGraph (nodes : List NodeData) (producers : List (String × String)) :
    Except String Graph :=
  addAllEdges (nodes.map (fun n => n.name)) producers
    (nodes.foldl (fun g n => addNode g n.name) {}) nodes

/-- Model of `GenFlow.build_graph`: add every node, derive every edge, then reject a
cyclic graph.  `nx.is_directed_acyclic_graph` is implemented by attempting a
topological sort, which `topologicalSort` models. -/
def build_graph (nodes : List NodeData) (producers : List (String × String)) :
    Except String Graph :=
  match deriveGraph nodes producers with
  | Except.error e => Except.error e
  | Except.ok g =>
      if (topologicalSort g).isSome then Except.ok g
      else Except.error ("The execution graph has cycles. Cannot proceed.")

/-! ## Parsing (`GenFlow.parse_yaml`) -/

/-- Register the variables one node produces, rejecting a variable that
already has a producer. -/
def addProducers (nodeName : String) :
    List String → List (String × String) → Except String (List (String × String))
  | [], prods => Except.ok prods
  | v :: vs, prods =>
      if (alookup prods v).isSome then
        Except.error ("Variable '" ++ v ++ "' is set by multiple nodes.")
      else addProducers nodeName vs (prods ++ [(v, nodeName)])

/-- The node loop of `GenFlow.parse_yaml`: reject duplicate node names,
record variable producers. -/
def parseNodes :
    List NodeData → List (String × NodeData) → List (String × String) →
    Except String (List (String × NodeData) × List (String × String))
  | [], acc, prods => Except.ok (acc, prods)
  | n :: rest, acc, prods =>
      if (alookup acc n.name).isSome then
        Except.error ("Duplicate node name '" ++ n.name ++ "' found.")
      else
        match get_produced_variables n with
        | Except.error e => Except.error e
        | Except.ok pvs =>
            match addProducers n.name pvs prods with
            | Except.error e => Except.error e
            | Except.ok prods' => parseNodes rest (acc ++ [(n.name, n)]) prods'

/-- The parsed flow: the node map, the variable→producer table and the
execution graph (`GenFlow.nodes`, `GenFlow.variable_producers`,
`GenFlow.graph` after `parse_yaml`). -/
structure GenFlow where
  nodes : List (String × NodeData)
  producers : List (String × String)
  graph : Graph

/-- Model of `GenFlow.parse_yaml` followed by the `build_graph` call it ends with. -/
def parse_yaml (yaml : List NodeData) : Except String GenFlow :=
  match parseNodes yaml [] [] with
  | Except.error e => Except.error e
  | Except.ok (ns, prods) =>
      match build_graph (ns.map (fun p => p.2)) prods with
      | Except.error e => Except.error e
      | Except.ok g => Except.ok ⟨ns, prods, g⟩

/-! ## Execution engine (`GenFlow.run`) -/

/-- How one iteration of the `run` loop ended for a step: parameter
resolution failed (first `except` branch), execution or output validation
failed (second `except` branch), or the step's outputs were recorded. -/
inductive StepStatus where
  | success
  | renderFailed (msg : String)
  | execFailed (msg : String)

/-- The engine state `run` threads through its loop: the Outputs Map, the
Variable Store, and the per-step attempt log (the model of `run`'s
log-and-continue handling). -/
structure RunState where
  outputs : List (String × List (String × Value)) := []
  vars : List (String × Value) := []
  trace : List (String × StepStatus) := []

/-- One iteration of the `run` loop: render the parameters against the
current Outputs Map and Variable Store; on success execute the node and
validate that the returned keys equal the declared `outputs`; record outputs
only when everything succeeded, and keep going in every case.  A variable
written by `execute_set_variable` persists even if the subsequent output
validation fails, as the Python mutation does. -/
def runStep (env : Env) (n : NodeData) (st : RunState) : RunState :=
  match render_params (buildContext st.outputs st.vars) n.params with
  | Except.error e => { st with trace := st.trace ++ [(n.name, .renderFailed e)] }
  | Except.ok params =>
      match execute env n params st.vars with
      | Except.error e => { st with trace := st.trace ++ [(n.name, .execFailed e)] }
      | Except.ok (outs, vars') =>
          if sameKeySet (outs.map (fun p => p.1)) n.outputs then
            { outputs := st.outputs ++ [(n.name, outs)]
              vars := vars'
              trace := st.trace ++ [(n.name, .success)] }
          else
            { st with
              vars := vars'
              trace := st.trace ++ [(n.name,
                .execFailed ("Node '" ++ n.name ++
                  "' outputs do not match expected outputs."))] }

/-- The `run` loop over the topological order.  The lookup can only miss if
the graph contained a name outside the node map, which `build_graph` never
produces; the miss branch is dead code kept for totality. -/
def runOrder (env : Env) (nodes : List (String × NodeData)) :
    List String → RunState → RunState
  | [], st => st
  | name :: rest, st =>
      match alookup nodes name with
      | some n => runOrder env nodes rest (runStep env n st)
      | none => runOrder env nodes rest st

/-- Model of `GenFlow.parse_yaml` followed by `GenFlow.run`, the way `main.py` drives
one run: a composition/graph error aborts with no state, otherwise every step
is attempted in topological order. -/
def genflowRun (env : Env) (yaml : List NodeData) : Except String RunState :=
  match parse_yaml yaml with
  | Except.error e => Except.error e
  | Except.ok flow =>
      match topologicalSort flow.graph with
      | none => Except.error ("Graph has cycles, cannot proceed.")
      | some order => Except.ok (runOrder env flow.nodes order {})

/-! ## Flow Composer (`YmlCompose`) -/

/-- One raw YAML node as the composer sees it (`node_data.get(...)`
semantics: any field may be absent). -/
structure YNodeData where
  name : Option String := none
  type : Option String := none
  yml_file : Option String := none
  params : List (String × Value) := []
  variable_name : Option String := none
  variables_map : List (String × String) := []
  outputs : List String := []

/-- Model of `os.path.dirname` restricted to relative slash-separated paths. -/
def dirname (p : String) : String :=
  match p.toList.reverse.dropWhile (fun c => c ≠ '/') with
  | '/' :: rest => String.mk rest.reverse
  | _ => ""

/-- Model of `os.path.join` restricted to relative paths. -/
def pathJoin (d f : String) : String :=
  if d = "" then f else if d.endsWith ("/") then d ++ f else d ++ "/" ++ f

/-- The reference-rewriting of `YmlCompose._adjust_params`
(`re.sub(r"(\x7b\x7b\s*)([\w_\.]+)(\s*\x7d\x7d)", ...)` over a parameter string):
each embedded reference has the composition prefix prepended to its first
dot-part, everything else is kept verbatim. -/
def adjustRefChars (pfx : String) : List Char → List Char
  | '\x7b' :: '\x7b' :: rest =>
      let sp1 := rest.takeWhile isPySpace
      let afterWs := rest.dropWhile isPySpace
      let nameChars := afterWs.takeWhile isRefChar
      let afterName := afterWs.dropWhile isRefChar
      let sp2 := afterName.takeWhile isPySpace
      let rest2 := afterName.dropWhile isPySpace
      match h : rest2 with
      | '\x7d' :: '\x7d' :: tail =>
          if nameChars.isEmpty then '\x7b' :: adjustRefChars pfx ('\x7b' :: rest)
          else
            let parts := pySplitDot (String.mk nameChars)
            let adjusted := String.intercalate (".") ((pfx ++ parts.headD ("")) :: parts.tail)
            ('\x7b' :: '\x7b' :: sp1) ++ adjusted.toList ++ sp2 ++
              ('\x7d' :: '\x7d' :: adjustRefChars pfx tail)
      | _ => '\x7b' :: adjustRefChars pfx ('\x7b' :: rest)
  | c :: rest => c :: adjustRefChars pfx rest
  | [] => []
  termination_by l => l.length
  decreasing_by
    all_goals simp_wf
    all_goals try omega
    · have h1 : rest2.length ≤ rest.length := by
        calc rest2.length
            ≤ ((rest.dropWhile isPySpace).dropWhile isRefChar).length :=
              (List.dropWhile_sublist _).length_le
          _ ≤ (rest.dropWhile isPySpace).length := (List.dropWhile_sublist _).length_le
          _ ≤ rest.length := (List.dropWhile_sublist _).length_le
      rw [h] at h1
      simp at h1
      omega

/-- Model of `YmlCompose._adjust_params`: string parameter values are rewritten,
non-string values are kept as is. -/
def adjust_params (pfx : String) (params : List (String × Value)) :
    List (String × Value) :=
  params.map (fun p =>
    match p.2 with
    | .vstr s => (p.1, Value.vstr (String.mk (adjustRefChars pfx s.toList)))
    | v => (p.1, v))

/-- The ordinary-node branch of `YmlCompose._process_yaml_file`: prefix the
name, rewrite parameter references, prefix `variable_name` (when present and
truthy) for set/get-variable nodes and the `variables` mapping values for
get-variables nodes. -/
def adjustOrdinary (nd : YNodeData) (unique : String) (pfx : String) : YNodeData :=
  let nd1 := { nd with name := some unique, params := adjust_params pfx nd.params }
  let nd2 :=
    if nd.type == some ("set_variable") || nd.type == some ("get_variable") then
      match nd.variable_name with
      | some v => if v = "" then nd1 else { nd1 with variable_name := some (pfx ++ v) }
      | none => nd1
    else nd1
  if nd.type == some ("get_variables") then
    { nd2 with variables_map := nd2.variables_map.map (fun q => (q.1, pfx ++ q.2)) }
  else nd2

/-- Composition failures, with fuel exhaustion of the recursion model kept
distinct from the errors `YmlCompose` itself raises. -/
inductive ComposeErr where
  | outOfFuel
  | failure (msg : String)

/-- Model of `YmlCompose` state: `combined_data['nodes']` and `node_name_set` (the
latter as a list, insertion-ordered; only membership is ever consulted). -/
structure ComposeState where
  combined : List YNodeData := []
  nameSet : List String := []

/-- Model of `YmlCompose._create_param_injection_nodes`, including its duplicate-name
check and `node_name_set` updates. -/
def injectionNodes (subPfx : String) (st : ComposeState) :
    List (String × Value) → Except ComposeErr ComposeState
  | [] => Except.ok st
  | (pname, pvalue) :: rest =>
      let iname := subPfx ++ "inject_param_" ++ pname
      if iname ∈ st.nameSet then
        Except.error (.failure
          ("Duplicate injection node name '" ++ iname ++ "' detected."))
      else
        injectionNodes subPfx
          { combined := st.combined ++
              [{ name := some iname, type := some ("set_variable"),
                 variable_name := some (subPfx ++ pname),
                 params := [("value", pvalue)], outputs := [] }],
            nameSet := st.nameSet ++ [iname] } rest

/-- Model of `YmlCompose._create_output_extraction_node`. -/
def extractionNode (nd : YNodeData) (subPfx : String) (parentName : String) :
    YNodeData :=
  { name := some parentName, type := some ("get_variables"),
    variables_map := nd.outputs.map (fun o => (o, subPfx ++ o)),
    outputs := nd.outputs }

mutual
/-- Model of `YmlCompose._process_yaml_file` entry for one file: the file-resolution
capability returns `none` for a missing file and `some none` for a file
without a `nodes` key.  The `Nat` fuel makes the (unboundedly) recursive
Python function total; a composition that completes within any fuel bound
never returns `outOfFuel`. -/
def processFile (fs : String → Option (Option (List YNodeData))) :
    Nat → String → String → ComposeState → Except ComposeErr ComposeState
  | 0, _, _, _ => Except.error .outOfFuel
  | fuel + 1, path, pfx, st =>
      match fs path with
      | none =>
          Except.error (.failure ("YAML file '" ++ path ++ "' does not exist."))
      | some none =>
          Except.error (.failure ("YAML file '" ++ path ++ "' must contain 'nodes'."))
      | some (some nodes) => processNodes fs fuel path pfx nodes st
  termination_by fuel _ _ _ => (fuel, 0)

/-- The per-node loop of `YmlCompose._process_yaml_file`: allocate the
prefixed unique name, reject duplicates, then either recurse into a sub-flow
(adding injection and extraction nodes around it) or emit the adjusted
ordinary node. -/
def processNodes (fs : String → Option (Option (List YNodeData))) :
    Nat → String → String → List YNodeData → ComposeState →
    Except ComposeErr ComposeState
  | _, _, _, [], st => Except.ok st
  | fuel, path, pfx, nd :: rest, st =>
      match nd.name with
      | none => Except.error (.failure ("A node without a 'name' was found."))
      | some nodeName =>
          let unique := pfx ++ nodeName
          if unique ∈ st.nameSet then
            Except.error (.failure
              ("Duplicate node name '" ++ unique ++ "' detected."))
          else
            let st1 : ComposeState := { st with nameSet := st.nameSet ++ [unique] }
            if nd.type == some ("yml_flow") then
              match nd.yml_file with
              | none => Except.error (.failure ("Node '" ++ unique ++
                  "' of type 'yml_flow' must have a 'yml_file' field."))
              | some sub =>
                  match processFile fs fuel (pathJoin (dirname path) sub)
                      (unique ++ "__") st1 with
                  | Except.error e => Except.error e
                  | Except.ok st2 =>
                      match injectionNodes (unique ++ "__") st2 nd.params with
                      | Except.error e => Except.error e
                      | Except.ok st3 =>
                          processNodes fs fuel path pfx rest
                            { st3 with combined := st3.combined ++
                                [extractionNode nd (unique ++ "__") unique] }
            else
              processNodes fs fuel path pfx rest
                { st1 with combined := st1.combined ++ [adjustOrdinary nd unique pfx] }
  termination_by fuel _ _ nds _ => (fuel, nds.length + 1)
end

/-! ## Acyclicity and concrete scenarios -/

/-- The edge relation of an edge list. -/
def EdgeRel (edges : List (String × String)) (a b : String) : Prop :=
  (a, b) ∈ edges

/-- A graph is acyclic when no node reaches itself through a nonempty chain
of edges. -/
def Acyclic (edges : List (String × String)) : Prop :=
  ∀ n, ¬ Relation.TransGen (EdgeRel edges) n n

/-- Function registry for the concrete scenarios: `fa` produces
`\x7bresult: 5\x7d` (Scenario A), `f` produces only `\x7ba: 1\x7d` against two declared
outputs (Scenario D), `echo` copies its `x` parameter into its `y` output,
`g1`/`g2` produce `\x7br: 0\x7d`.  The completion-service oracle always raises, as
a run with no network would. -/
def envD : Env :=
  { funcs := fun name =>
      if name = "fa" then some (fun _ => Except.ok (Value.vdict [("result", Value.vint 5)]))
      else if name = "f" then some (fun _ => Except.ok (Value.vdict [("a", Value.vint 1)]))
      else if name = "echo" then
        some (fun params => Except.ok (Value.vdict [("y", (alookup params ("x")).getD Value.vnull)]))
      else if name = "g1" then some (fun _ => Except.ok (Value.vdict [("r", Value.vint 0)]))
      else if name = "g2" then some (fun _ => Except.ok (Value.vdict [("r", Value.vint 0)]))
      else none,
    llm := fun _ _ => Except.error ("no network") }

/-- Scenario C: a set-variable step producing `limit = 10`. -/
def nodeX : NodeData :=
  { name := "X", type := "set_variable", params := [("value", .vint 10)],
    variable_name := some ("limit") }

/-- Scenario C: a get-variable step reading `limit`, with no explicit
dependency on `nodeX`. -/
def nodeY : NodeData :=
  { name := "Y", type := "get_variable", variable_name := some ("limit"),
    outputs := ["value"] }

/-- Scenario B: `A` references `B.out`. -/
def nodeA : NodeData :=
  { name := "A", type := "function_call", function := some ("fa"),
    params := [("x", .vstr ("\x7b\x7b B.out \x7d\x7d"))], outputs := ["out"] }

/-- Scenario B: `B` references `A.out`, closing the cycle. -/
def nodeB : NodeData :=
  { name := "B", type := "function_call", function := some ("fb"),
    params := [("y", .vstr ("\x7b\x7b A.out \x7d\x7d"))], outputs := ["out"] }

/-- Scenario A: a function-call step with no dependencies producing
`\x7bresult: 5\x7d`. -/
def nodeSA : NodeData :=
  { name := "A", type := "function_call", function := some ("fa"),
    outputs := ["result"] }

/-- Scenario A: a step whose `x` parameter is exactly the reference
`\x7b\x7b A.result \x7d\x7d`; its `echo` function copies `x` into the output `y`, so the
recorded output exhibits the value `x` arrived as. -/
def nodeSB : NodeData :=
  { name := "B", type := "function_call", function := some ("echo"),
    params := [("x", .vstr ("\x7b\x7b A.result \x7d\x7d"))], outputs := ["y"] }

/-- Scenario D: declares outputs `a` and `b` but its function `f` returns
only `\x7ba: 1\x7d`. -/
def nodeF : NodeData :=
  { name := "F", type := "function_call", function := some ("f"),
    outputs := ["a", "b"] }

/-- Scenario D: a downstream step whose whole parameter is the reference
`\x7b\x7b F.b \x7d\x7d` into the failed step's missing output. -/
def nodeS : NodeData :=
  { name := "S", type := "function_call", function := some ("g1"),
    params := [("x", .vstr ("\x7b\x7b F.b \x7d\x7d"))], outputs := ["r"] }

/-- A step referencing the failed step `F` with the reference embedded in
surrounding text. -/
def nodeS2 : NodeData :=
  { name := "S2", type := "function_call", function := some ("g2"),
    params := [("y", .vstr ("val: \x7b\x7b F.b \x7d\x7d"))], outputs := ["r"] }

/-- The self-including flow document: file `flow.yaml` holds one `yml_flow`
node whose `yml_file` is `flow.yaml` itself. -/
def selfFS : String → Option (Option (List YNodeData)) :=
  fun p =>
    if p = "flow.yaml" then
      some (some [{ name := some ("n"), type := some ("yml_flow"),
                    yml_file := some ("flow.yaml") }])
    else none

/-! ## Properties of the topological sort -/

/-- The order returned by `topoAux` is a permutation of the remaining nodes:
every node is emitted exactly once. -/
theorem topoAux_perm (edges : List (String × String)) :
    ∀ (fuel : Nat) (rem order : List String), rem.length ≤ fuel →
      topoAux edges fuel rem = some order → rem.Perm order := by
  intro fuel
  induction fuel with
  | zero =>
      intro rem order hle h
      have hnil : rem = [] := List.eq_nil_of_length_eq_zero (Nat.le_zero.mp hle)
      subst hnil
      simp [topoAux] at h
      simp [← h]
  | succ fuel ih =>
      intro rem order hle h
      rw [topoAux] at h
      cases hf : rem.find? (ready edges rem) with
      | some n =>
          rw [hf] at h
          obtain ⟨order', h1, h2⟩ := Option.map_eq_some'.mp h
          have hn : n ∈ rem := List.mem_of_find?_eq_some hf
          have hpos : 1 ≤ rem.length := by
            cases rem with
            | nil => cases hn
            | cons a l => simp
          have hlen : (rem.erase n).length ≤ fuel := by
            rw [List.length_erase_of_mem hn]; omega
          have hperm' := ih _ _ hlen h1
          subst h2
          exact (List.perm_cons_erase hn).trans (hperm'.cons n)
      | none =>
          rw [hf] at h
          by_cases hre : rem.isEmpty
          · rw [if_pos hre] at h
            cases h
            simp [List.isEmpty_iff.mp hre]
          · rw [if_neg hre] at h
            cases h

/-- The order returned by `topoAux` respects every edge between remaining
nodes: the source is emitted strictly before the target. -/
theorem topoAux_edge_indexOf (edges : List (String × String)) :
    ∀ (fuel : Nat) (rem order : List String), rem.length ≤ fuel →
      topoAux edges fuel rem = some order →
      ∀ u v, (u, v) ∈ edges → u ∈ rem → v ∈ rem →
        order.indexOf u < order.indexOf v := by
  intro fuel
  induction fuel with
  | zero =>
      intro rem order hle h u v huv hu hv
      have hnil : rem = [] := List.eq_nil_of_length_eq_zero (Nat.le_zero.mp hle)
      subst hnil
      cases hu
  | succ fuel ih =>
      intro rem order hle h u v huv hu hv
      rw [topoAux] at h
      cases hf : rem.find? (ready edges rem) with
      | some n =>
          rw [hf] at h
          obtain ⟨order', h1, h2⟩ := Option.map_eq_some'.mp h
          have hn : n ∈ rem := List.mem_of_find?_eq_some hf
          have hready : ready edges rem n = true := List.find?_some hf
          have hnoPred : ∀ e ∈ edges, ¬(e.2 = n ∧ e.1 ∈ rem) := by
            intro e he
            have hfalse : edges.any (fun e => e.2 = n && rem.contains e.1) = false := by
              simpa [ready] using hready
            have := List.any_eq_false.mp hfalse e he
            simpa using this
          have hvn : v ≠ n := by
            intro hvn
            exact hnoPred (u, v) huv ⟨hvn, hu⟩
          have hpos : 1 ≤ rem.length := by
            cases rem with
            | nil => cases hn
            | cons a l => simp
          have hlen : (rem.erase n).length ≤ fuel := by
            rw [List.length_erase_of_mem hn]; omega
          subst h2
          by_cases hun : u = n
          · subst hun
            rw [List.indexOf_cons_self]
            rw [List.indexOf_cons_ne _ (fun hh => hvn hh.symm)]
            exact Nat.succ_pos _
          · have hu' : u ∈ rem.erase n := (List.mem_erase_of_ne hun).mpr hu
            have hv' : v ∈ rem.erase n := (List.mem_erase_of_ne hvn).mpr hv
            have hlt := ih _ _ hlen h1 u v huv hu' hv'
            rw [List.indexOf_cons_ne _ (fun hh => hun hh.symm),
              List.indexOf_cons_ne _ (fun hh => hvn hh.symm)]
            exact Nat.succ_lt_succ hlt
      | none =>
          rw [hf] at h
          by_cases hre : rem.isEmpty
          · rw [List.isEmpty_iff.mp hre] at hu
            cases hu
          · rw [if_neg hre] at h
            cases h

/-- If every remaining node has a predecessor among the remaining nodes, the
edge list contains a cycle (follow predecessors; a finite set forces a
repeat). -/
theorem cycle_of_all_preds (edges : List (String × String)) (rem : List String)
    (hne : rem ≠ []) (hall : ∀ n ∈ rem, ∃ u, u ∈ rem ∧ (u, n) ∈ edges) :
    ∃ n, Relation.TransGen (EdgeRel edges) n n := by
  obtain ⟨n0, hn0⟩ := List.exists_mem_of_ne_nil rem hne
  have hpred : ∀ x : {x // x ∈ rem}, ∃ y : {x // x ∈ rem}, (y.1, x.1) ∈ edges := by
    intro x
    obtain ⟨u, hu, he⟩ := hall x.1 x.2
    exact ⟨⟨u, hu⟩, he⟩
  choose f hf using hpred
  set g : Nat → {x // x ∈ rem} := fun k => f^[k] ⟨n0, hn0⟩ with hg
  have hstep : ∀ k : Nat, EdgeRel edges (g (k + 1)).1 (g k).1 := by
    intro k
    have : g (k + 1) = f (g k) := Function.iterate_succ_apply' f k _
    rw [this]
    exact hf (g k)
  have hchain : ∀ i j : Nat, i < j →
      Relation.TransGen (EdgeRel edges) (g j).1 (g i).1 := by
    intro i j hij
    induction j with
    | zero => omega
    | succ j ihj =>
        rcases Nat.lt_succ_iff_lt_or_eq.mp hij with hlt | heq
        · exact Relation.TransGen.head (hstep j) (ihj hlt)
        · subst heq
          exact Relation.TransGen.single (hstep i)
  have hmaps : ∀ a : Fin (rem.length + 1),
      a ∈ (Finset.univ : Finset (Fin (rem.length + 1))) → (g a.1).1 ∈ rem.toFinset := by
    intro a _
    exact List.mem_toFinset.mpr (g a.1).2
  have hcard : rem.toFinset.card <
      (Finset.univ : Finset (Fin (rem.length + 1))).card := by
    have h1 : rem.toFinset.card ≤ rem.length := rem.toFinset_card_le
    have h2 : (Finset.univ : Finset (Fin (rem.length + 1))).card = rem.length + 1 := by
      simp
    omega
  obtain ⟨a, -, b, -, hab, heq⟩ :=
    Finset.exists_ne_map_eq_of_card_lt_of_maps_to hcard hmaps
  have hab' : a.1 ≠ b.1 := fun hh => hab (Fin.ext hh)
  rcases hab'.lt_or_lt with hlt | hlt
  · exact ⟨(g a.1).1, heq ▸ hchain a.1 b.1 hlt⟩
  · exact ⟨(g b.1).1, heq ▸ hchain b.1 a.1 hlt⟩

/-- Completeness of the sort: on an acyclic edge list, `topoAux` always
returns an order (the cycle branch of `build_graph`/`run` is not taken). -/
theorem topoAux_complete (edges : List (String × String))
    (hacyc : Acyclic edges) :
    ∀ (fuel : Nat) (rem : List String), rem.length ≤ fuel →
      (topoAux edges fuel rem).isSome := by
  intro fuel
  induction fuel with
  | zero =>
      intro rem hle
      have hnil : rem = [] := List.eq_nil_of_length_eq_zero (Nat.le_zero.mp hle)
      subst hnil
      simp [topoAux]
  | succ fuel ih =>
      intro rem hle
      rw [topoAux]
      cases hf : rem.find? (ready edges rem) with
      | some n =>
          have hn : n ∈ rem := List.mem_of_find?_eq_some hf
          have hpos : 1 ≤ rem.length := by
            cases rem with
            | nil => cases hn
            | cons a l => simp
          have hlen : (rem.erase n).length ≤ fuel := by
            rw [List.length_erase_of_mem hn]; omega
          have := ih _ hlen
          simp only [Option.isSome_map']
          exact this
      | none =>
          by_cases hre : rem = []
          · simp [hre]
          · exfalso
            have hall : ∀ n ∈ rem, ∃ u, u ∈ rem ∧ (u, n) ∈ edges := by
              intro n hn
              have hnr : ¬ ready edges rem n = true := by
                simpa using List.find?_eq_none.mp hf n hn
              have hany : edges.any (fun e => e.2 = n && rem.contains e.1) = true := by
                cases hb : edges.any (fun e => e.2 = n && rem.contains e.1) with
                | true => rfl
                | false => exact absurd (by simp only [ready, hb, Bool.not_false]) hnr
              obtain ⟨e, he, hcond⟩ := List.any_eq_true.mp hany
              simp only [Bool.and_eq_true, decide_eq_true_eq] at hcond
              obtain ⟨he2, he1⟩ := hcond
              exact ⟨e.1, by simpa using he1, by rw [← he2]; exact he⟩
            obtain ⟨m, hm⟩ := cycle_of_all_preds edges rem hre hall
            exact hacyc m hm

/-- An order produced by `topologicalSort` certifies acyclicity: every edge
chain strictly increases the position in the order. -/
theorem acyclic_of_topologicalSort (g : Graph) (order : List String)
    (h : topologicalSort g = some order)
    (hwf : ∀ e ∈ g.edges, (e : String × String).1 ∈ g.nodes ∧ e.2 ∈ g.nodes) :
    Acyclic g.edges := by
  rw [topologicalSort] at h
  intro n hn
  have key : ∀ a b, Relation.TransGen (EdgeRel g.edges) a b →
      order.indexOf a < order.indexOf b := by
    intro a b hab
    induction hab with
    | single he =>
        exact topoAux_edge_indexOf g.edges g.nodes.length g.nodes order
          (le_refl _) h _ _ he (hwf _ he).1 (hwf _ he).2
    | tail _ hbc ih =>
        exact lt_trans ih (topoAux_edge_indexOf g.edges g.nodes.length g.nodes order
          (le_refl _) h _ _ hbc (hwf _ hbc).1 (hwf _ hbc).2)
  have := key n n hn
  omega

/-! ## Association-list lookup facts -/

theorem alookup_mem {α : Type} {l : List (String × α)} {k : String} {v : α}
    (h : alookup l k = some v) : (k, v) ∈ l := by
  induction l with
  | nil => cases h
  | cons p rest ih =>
      obtain ⟨k', v'⟩ := p
      rw [alookup] at h
      by_cases hk : k' = k
      · rw [if_pos hk] at h
        cases h
        subst hk
        exact List.mem_cons_self _ _
      · rw [if_neg hk] at h
        exact List.mem_cons_of_mem _ (ih h)

theorem alookup_isSome_iff {α : Type} (l : List (String × α)) (k : String) :
    (alookup l k).isSome ↔ k ∈ l.map Prod.fst := by
  induction l with
  | nil => simp [alookup]
  | cons p rest ih =>
      obtain ⟨k', v'⟩ := p
      rw [alookup]
      by_cases hk : k' = k
      · subst hk
        simp
      · rw [if_neg hk]
        simp only [List.map_cons, List.mem_cons]
        constructor
        · intro h
          exact Or.inr (ih.mp h)
        · intro h
          rcases h with h | h
          · exact absurd h.symm hk
          · exact ih.mpr h

theorem alookup_mem_nodup {α : Type} {l : List (String × α)} {k : String} {v : α}
    (hnd : (l.map Prod.fst).Nodup) (h : (k, v) ∈ l) : alookup l k = some v := by
  induction l with
  | nil => cases h
  | cons p rest ih =>
      obtain ⟨k', v'⟩ := p
      rcases List.mem_cons.mp h with heq | hmem
      · cases heq
        simp [alookup]
      · have hk : k' ≠ k := by
          intro hh
          subst hh
          have : k' ∈ rest.map Prod.fst :=
            List.mem_map.mpr ⟨(k', v), hmem, rfl⟩
          exact (List.nodup_cons.mp hnd).1 this
        rw [alookup, if_neg hk]
        exact ih (List.nodup_cons.mp hnd).2 hmem

theorem alookup_append {α : Type} (a b : List (String × α)) (k : String) :
    alookup (a ++ b) k =
      match alookup a k with
      | some v => some v
      | none => alookup b k := by
  induction a with
  | nil => simp [alookup]
  | cons p rest ih =>
      obtain ⟨k', v'⟩ := p
      by_cases hk : k' = k
      · simp [alookup, hk]
      · simp only [List.cons_append, alookup, if_neg hk]
        exact ih

/-! ## Graph construction facts -/

theorem addNode_eq_of_mem {g : Graph} {n : String} (h : n ∈ g.nodes) :
    addNode g n = g := by
  simp [addNode, h]

theorem addNode_edges (g : Graph) (n : String) : (addNode g n).edges = g.edges := by
  unfold addNode
  split <;> rfl

theorem mem_addNode_self (g : Graph) (n : String) : n ∈ (addNode g n).nodes := by
  unfold addNode
  split
  · assumption
  · simp

theorem addNode_nodes_nodup {g : Graph} {n : String} (h : g.nodes.Nodup) :
    (addNode g n).nodes.Nodup := by
  unfold addNode
  split
  · exact h
  · next hmem => simp [List.nodup_middle, h, hmem]

theorem addEdge_nodes_of_mem {g : Graph} {u v : String}
    (hu : u ∈ g.nodes) (hv : v ∈ g.nodes) : (addEdge g u v).nodes = g.nodes := by
  unfold addEdge
  rw [addNode_eq_of_mem hu, addNode_eq_of_mem hv]
  dsimp only
  split <;> rfl

theorem addEdge_edges_sub {g : Graph} {u v : String} :
    ∀ e ∈ (addEdge g u v).edges, e ∈ g.edges ∨ e = (u, v) := by
  intro e he
  unfold addEdge at he
  dsimp only at he
  split at he
  · rw [addNode_edges, addNode_edges] at he
    exact Or.inl he
  · simp only [addNode_edges] at he
    rcases List.mem_append.mp he with h1 | h1
    · exact Or.inl h1
    · exact Or.inr (by simpa using h1)

theorem addEdge_mem_edges (g : Graph) (u v : String) :
    (u, v) ∈ (addEdge g u v).edges := by
  unfold addEdge
  dsimp only
  split
  · next h => exact h
  · simp

theorem addEdge_edges_mono {g : Graph} {u v : String} {e : String × String}
    (h : e ∈ g.edges) : e ∈ (addEdge g u v).edges := by
  unfold addEdge
  dsimp only
  split
  · rwa [addNode_edges, addNode_edges]
  · refine List.mem_append_left _ ?_
    rwa [addNode_edges, addNode_edges]

theorem foldl_addNode_nodes :
    ∀ (l : List String) (g : Graph), l.Nodup → (∀ x ∈ l, x ∉ g.nodes) →
      (l.foldl addNode g).nodes = g.nodes ++ l := by
  intro l
  induction l with
  | nil => intro g _ _; simp
  | cons x rest ih =>
      intro g hnd hnotin
      have hx : x ∉ g.nodes := hnotin x (List.mem_cons_self _ _)
      have hstep : (addNode g x).nodes = g.nodes ++ [x] := by
        simp [addNode, hx]
      rw [List.foldl_cons, ih (addNode g x) (List.nodup_cons.mp hnd).2]
      · rw [hstep]
        simp
      · intro y hy
        rw [hstep]
        intro hmem
        rcases List.mem_append.mp hmem with h1 | h1
        · exact hnotin y (List.mem_cons_of_mem _ hy) h1
        · exact (List.nodup_cons.mp hnd).1 (by simpa [← List.mem_singleton.mp h1] using hy)

theorem foldl_addNode_edges :
    ∀ (l : List String) (g : Graph), (l.foldl addNode g).edges = g.edges := by
  intro l
  induction l with
  | nil => intro g; rfl
  | cons x rest ih =>
      intro g
      rw [List.foldl_cons, ih, addNode_edges]

/-- Edge derivation for one node leaves the node set unchanged and only adds
edges between present nodes, provided every name it can mention is already a
node. -/
theorem addDepEdges_facts (names : List String) (producers : List (String × String))
    (nodeName : String) :
    ∀ (deps : List String) (g g' : Graph),
      addDepEdges names producers nodeName g deps = Except.ok g' →
      (∀ x ∈ names, x ∈ g.nodes) →
      (∀ q ∈ producers, (q : String × String).2 ∈ g.nodes) →
      nodeName ∈ g.nodes →
      g'.nodes = g.nodes ∧
        ∀ e ∈ g'.edges, e ∈ g.edges ∨
          ((e : String × String).1 ∈ g.nodes ∧ e.2 ∈ g.nodes) := by
  intro deps
  induction deps with
  | nil =>
      intro g g' h _ _ _
      rw [addDepEdges] at h
      cases h
      exact ⟨rfl, fun e he => Or.inl he⟩
  | cons dep rest ih =>
      intro g g' h hnames hprod hnode
      rw [addDepEdges] at h
      by_cases hdep : dep ∈ names
      · rw [if_pos hdep] at h
        have hdepn : dep ∈ g.nodes := hnames dep hdep
        have hnodes2 : (addEdge g dep nodeName).nodes = g.nodes :=
          addEdge_nodes_of_mem hdepn hnode
        obtain ⟨hn', he'⟩ := ih (addEdge g dep nodeName) g' h
          (fun x hx => by rw [hnodes2]; exact hnames x hx)
          (fun q hq => by rw [hnodes2]; exact hprod q hq)
          (by rw [hnodes2]; exact hnode)
        refine ⟨by rw [hn', hnodes2], fun e he => ?_⟩
        rcases he' e he with h1 | h1
        · rcases addEdge_edges_sub e h1 with h2 | h2
          · exact Or.inl h2
          · subst h2
            exact Or.inr ⟨hdepn, hnode⟩
        · rw [hnodes2] at h1
          exact Or.inr h1
      · rw [if_neg hdep] at h
        cases hlook : alookup producers dep with
        | some p =>
            rw [hlook] at h
            have hpn : p ∈ g.nodes := hprod (dep, p) (alookup_mem hlook)
            have hnodes2 : (addEdge g p nodeName).nodes = g.nodes :=
              addEdge_nodes_of_mem hpn hnode
            obtain ⟨hn', he'⟩ := ih (addEdge g p nodeName) g' h
              (fun x hx => by rw [hnodes2]; exact hnames x hx)
              (fun q hq => by rw [hnodes2]; exact hprod q hq)
              (by rw [hnodes2]; exact hnode)
            refine ⟨by rw [hn', hnodes2], fun e he => ?_⟩
            rcases he' e he with h1 | h1
            · rcases addEdge_edges_sub e h1 with h2 | h2
              · exact Or.inl h2
              · subst h2
                exact Or.inr ⟨hpn, hnode⟩
            · rw [hnodes2] at h1
              exact Or.inr h1
        | none =>
            rw [hlook] at h
            cases h

/-- Edge derivation over the whole node list: nodes unchanged, every new
edge is between present nodes. -/
theorem addAllEdges_facts (names : List String) (producers : List (String × String)) :
    ∀ (nds : List NodeData) (g g' : Graph),
      addAllEdges names producers g nds = Except.ok g' →
      (∀ x ∈ names, x ∈ g.nodes) →
      (∀ q ∈ producers, (q : String × String).2 ∈ g.nodes) →
      (∀ n ∈ nds, NodeData.name n ∈ g.nodes) →
      g'.nodes = g.nodes ∧
        ∀ e ∈ g'.edges, e ∈ g.edges ∨
          ((e : String × String).1 ∈ g.nodes ∧ e.2 ∈ g.nodes) := by
  intro nds
  induction nds with
  | nil =>
      intro g g' h _ _ _
      rw [addAllEdges] at h
      cases h
      exact ⟨rfl, fun e he => Or.inl he⟩
  | cons n rest ih =>
      intro g g' h hnames hprod hnds
      rw [addAllEdges] at h
      cases hstep : addDepEdges names producers n.name g (get_dependencies n) with
      | error e => rw [hstep] at h; cases h
      | ok g2 =>
          rw [hstep] at h
          obtain ⟨hn2, he2⟩ := addDepEdges_facts names producers n.name
            (get_dependencies n) g g2 hstep hnames hprod
            (hnds n (List.mem_cons_self _ _))
          obtain ⟨hn', he'⟩ := ih g2 g' h
            (fun x hx => by rw [hn2]; exact hnames x hx)
            (fun q hq => by rw [hn2]; exact hprod q hq)
            (fun m hm => by rw [hn2]; exact hnds m (List.mem_cons_of_mem _ hm))
          refine ⟨by rw [hn', hn2], fun e he => ?_⟩
          rcases he' e he with h1 | h1
          · rcases he2 e h1 with h2 | h2
            · exact Or.inl h2
            · exact Or.inr h2
          · rw [hn2] at h1
            exact Or.inr h1

/-- Model of `deriveGraph` on a duplicate-free node list: the graph's nodes are
exactly the declared names in declaration order, and every edge runs between
declared nodes. -/
theorem deriveGraph_facts (nds : List NodeData) (producers : List (String × String))
    (g : Graph) (h : deriveGraph nds producers = Except.ok g)
    (hnd : (nds.map NodeData.name).Nodup)
    (hp : ∀ q ∈ producers, (q : String × String).2 ∈ nds.map NodeData.name) :
    g.nodes = nds.map NodeData.name ∧
      (∀ e ∈ g.edges, (e : String × String).1 ∈ g.nodes ∧ e.2 ∈ g.nodes) := by
  unfold deriveGraph at h
  have hfold : (nds.foldl (fun g n => addNode g n.name) {}) =
      ((nds.map NodeData.name).foldl addNode ({} : Graph)) := by
    rw [List.foldl_map]
  rw [hfold] at h
  have hg0nodes : ((nds.map NodeData.name).foldl addNode ({} : Graph)).nodes =
      nds.map NodeData.name := by
    rw [foldl_addNode_nodes (nds.map NodeData.name) {} hnd (by intro x _; simp [Graph.nodes])]
    simp [Graph.nodes]
  have hg0edges : ((nds.map NodeData.name).foldl addNode ({} : Graph)).edges = [] := by
    rw [foldl_addNode_edges]
  obtain ⟨hn', he'⟩ := addAllEdges_facts (nds.map NodeData.name) producers nds _ g h
    (fun x hx => by rw [hg0nodes]; exact hx)
    (fun q hq => by rw [hg0nodes]; exact hp q hq)
    (fun n hn => by rw [hg0nodes]; exact List.mem_map.mpr ⟨n, hn, rfl⟩)
  have hgn : g.nodes = nds.map NodeData.name := by rw [hn', hg0nodes]
  refine ⟨hgn, fun e he => ?_⟩
  rcases he' e he with h1 | h1
  · rw [hg0edges] at h1
    cases h1
  · rw [hg0nodes] at h1
    rw [hgn]
    exact h1

/-! ## Parsing facts -/

theorem addProducers_sub (nodeName : String) :
    ∀ (vs : List String) (prods prods' : List (String × String)),
      addProducers nodeName vs prods = Except.ok prods' →
      ∀ q ∈ prods', q ∈ prods ∨ (q : String × String).2 = nodeName := by
  intro vs
  induction vs with
  | nil =>
      intro prods prods' h q hq
      rw [addProducers] at h
      cases h
      exact Or.inl hq
  | cons v rest ih =>
      intro prods prods' h q hq
      rw [addProducers] at h
      by_cases hs : (alookup prods v).isSome
      · rw [if_pos hs] at h
        cases h
      · rw [if_neg hs] at h
        rcases ih _ _ h q hq with h1 | h1
        · rcases List.mem_append.mp h1 with h2 | h2
          · exact Or.inl h2
          · exact Or.inr (by simpa using congrArg Prod.snd (List.mem_singleton.mp h2))
        · exact Or.inr h1

/-- Invariants of the `parse_yaml` node loop: every map entry is keyed by its
node's name, node names are duplicate-free, and every variable producer is a
parsed node. -/
theorem parseNodes_facts :
    ∀ (l : List NodeData) (acc : List (String × NodeData))
      (prods : List (String × String)) (ns : List (String × NodeData))
      (ps : List (String × String)),
      parseNodes l acc prods = Except.ok (ns, ps) →
      (∀ p ∈ acc, (p : String × NodeData).2.name = p.1) →
      (acc.map Prod.fst).Nodup →
      (∀ q ∈ prods, (q : String × String).2 ∈ acc.map Prod.fst) →
      (∀ p ∈ ns, (p : String × NodeData).2.name = p.1) ∧
        (ns.map Prod.fst).Nodup ∧
        (∀ q ∈ ps, (q : String × String).2 ∈ ns.map Prod.fst) := by
  intro l
  induction l with
  | nil =>
      intro acc prods ns ps h hacc hnd hprods
      rw [parseNodes] at h
      cases h
      exact ⟨hacc, hnd, hprods⟩
  | cons n rest ih =>
      intro acc prods ns ps h hacc hnd hprods
      rw [parseNodes] at h
      by_cases hs : (alookup acc n.name).isSome
      · rw [if_pos hs] at h
        cases h
      · rw [if_neg hs] at h
        cases hpv : get_produced_variables n with
        | error e => rw [hpv] at h; cases h
        | ok pvs =>
            rw [hpv] at h
            dsimp only at h
            cases hap : addProducers n.name pvs prods with
            | error e => rw [hap] at h; cases h
            | ok prods' =>
                rw [hap] at h
                have hnotmem : n.name ∉ acc.map Prod.fst := by
                  rw [← alookup_isSome_iff]
                  simpa using hs
                refine ih (acc ++ [(n.name, n)]) prods' ns ps h ?_ ?_ ?_
                · intro p hp
                  rcases List.mem_append.mp hp with h1 | h1
                  · exact hacc p h1
                  · rw [List.mem_singleton.mp h1]
                · rw [List.map_append]
                  rw [List.nodup_append]
                  refine ⟨hnd, List.nodup_singleton _, ?_⟩
                  intro x hx hx2
                  simp only [List.map_cons, List.map_nil, List.mem_singleton] at hx2
                  exact hnotmem (hx2 ▸ hx)
                · intro q hq
                  rcases addProducers_sub n.name pvs prods prods' hap q hq with h1 | h1
                  · have := hprods q h1
                    simp only [List.map_append]
                    exact List.mem_append_left _ this
                  · simp [h1]

/-- The variables produced by the nodes still to be parsed are
duplicate-free and unclaimed by the producer table whenever parsing
succeeds. -/
theorem parseNodes_setvars :
    ∀ (l : List NodeData) (acc : List (String × NodeData))
      (prods : List (String × String))
      (r : List (String × NodeData) × List (String × String)),
      parseNodes l acc prods = Except.ok r →
      (l.filterMap (fun n =>
        if n.type = "set_variable" then n.variable_name else none)).Nodup ∧
      (∀ v ∈ l.filterMap (fun n =>
          if n.type = "set_variable" then n.variable_name else none),
        alookup prods v = none) := by
  intro l
  induction l with
  | nil =>
      intro acc prods r _
      simp
  | cons n rest ih =>
      intro acc prods r h
      rw [parseNodes] at h
      by_cases hs : (alookup acc n.name).isSome
      · rw [if_pos hs] at h
        cases h
      · rw [if_neg hs] at h
        cases hpv : get_produced_variables n with
        | error e => rw [hpv] at h; cases h
        | ok pvs =>
            rw [hpv] at h
            dsimp only at h
            cases hap : addProducers n.name pvs prods with
            | error e => rw [hap] at h; cases h
            | ok prods' =>
                rw [hap] at h
                by_cases htype : n.type = "set_variable"
                · cases hv : n.variable_name with
                  | none =>
                      rw [get_produced_variables, if_pos htype, hv] at hpv
                      cases hpv
                  | some v =>
                      rw [get_produced_variables, if_pos htype, hv] at hpv
                      cases hpv
                      rw [addProducers] at hap
                      by_cases hvs : (alookup prods v).isSome
                      · rw [if_pos hvs] at hap
                        cases hap
                      · rw [if_neg hvs, addProducers] at hap
                        cases hap
                        obtain ⟨hnd, hnone⟩ := ih _ _ _ h
                        have hvnone : alookup prods v = none :=
                          Option.not_isSome_iff_eq_none.mp hvs
                        have hvnotin : v ∉ rest.filterMap (fun n =>
                            if n.type = "set_variable" then n.variable_name else none) := by
                          intro hmem
                          have := hnone v hmem
                          rw [alookup_append, hvnone] at this
                          simp [alookup] at this
                        have hfmc : (n :: rest).filterMap (fun n =>
                            if n.type = "set_variable" then n.variable_name else none) =
                            v :: rest.filterMap (fun n =>
                              if n.type = "set_variable" then n.variable_name else none) := by
                          simp [List.filterMap_cons, htype, hv]
                        constructor
                        · rw [hfmc]
                          exact List.nodup_cons.mpr ⟨hvnotin, hnd⟩
                        · intro w hw
                          rw [hfmc] at hw
                          rcases List.mem_cons.mp hw with h1 | h1
                          · rw [h1]
                            exact hvnone
                          · have := hnone w h1
                            rw [alookup_append] at this
                            cases hlw : alookup prods w with
                            | none => rfl
                            | some x => rw [hlw] at this; cases this
                · have hpvs : pvs = [] := by
                    rw [get_produced_variables, if_neg htype] at hpv
                    cases hpv
                    rfl
                  subst hpvs
                  rw [addProducers] at hap
                  cases hap
                  obtain ⟨hnd, hnone⟩ := ih _ _ _ h
                  have hfmc2 : (n :: rest).filterMap (fun n =>
                      if n.type = "set_variable" then n.variable_name else none) =
                      rest.filterMap (fun n =>
                        if n.type = "set_variable" then n.variable_name else none) := by
                    simp [List.filterMap_cons, htype]
                  constructor
                  · rw [hfmc2]
                    exact hnd
                  · intro w hw
                    rw [hfmc2] at hw
                    exact hnone w hw

/-! ## Execution-engine facts -/

/-- Every attempted step appends exactly one entry, keyed by the step's name,
to the attempt log: a step is never retried and never silently skipped. -/
theorem runStep_trace (env : Env) (n : NodeData) (st : RunState) :
    ∃ s, (runStep env n st).trace = st.trace ++ [(n.name, s)] := by
  rcases hr : render_params (buildContext st.outputs st.vars) n.params with e | params
  · exact ⟨.renderFailed e, by simp [runStep, hr]⟩
  · rcases he : execute env n params st.vars with e | pr
    · exact ⟨.execFailed e, by simp [runStep, hr, he]⟩
    · obtain ⟨outs, vars'⟩ := pr
      cases hsk : sameKeySet (outs.map (fun p => p.1)) n.outputs
      · exact ⟨.execFailed ("Node '" ++ n.name ++
          "' outputs do not match expected outputs."), by simp [runStep, hr, he, hsk]⟩
      · exact ⟨.success, by simp [runStep, hr, he, hsk]⟩

/-- The attempt log only grows during a run. -/
theorem runOrder_trace_extend (env : Env) (nodes : List (String × NodeData)) :
    ∀ (order : List String) (st : RunState),
      ∃ tr, (runOrder env nodes order st).trace = st.trace ++ tr := by
  intro order
  induction order with
  | nil => intro st; exact ⟨[], by simp [runOrder]⟩
  | cons name rest ih =>
      intro st
      cases hl : alookup nodes name with
      | none =>
          obtain ⟨tr, htr⟩ := ih st
          exact ⟨tr, by simp [runOrder, hl, htr]⟩
      | some n =>
          obtain ⟨tr, htr⟩ := ih (runStep env n st)
          obtain ⟨s, hs⟩ := runStep_trace env n st
          refine ⟨(n.name, s) :: tr, ?_⟩
          simp [runOrder, hl, htr, hs]

/-- Driving the loop over an order whose every name resolves to a node of
that name attempts exactly the steps of the order, in order. -/
theorem runOrder_trace_names (env : Env) (nodes : List (String × NodeData)) :
    ∀ (order : List String) (st : RunState),
      (∀ name ∈ order, ∃ n, alookup nodes name = some n ∧ NodeData.name n = name) →
      ((runOrder env nodes order st).trace).map Prod.fst =
        (st.trace.map Prod.fst) ++ order := by
  intro order
  induction order with
  | nil => intro st _; simp [runOrder]
  | cons name rest ih =>
      intro st hall
      obtain ⟨n, hl, hname⟩ := hall name (List.mem_cons_self _ _)
      obtain ⟨s, hs⟩ := runStep_trace env n st
      have := ih (runStep env n st) (fun m hm => hall m (List.mem_cons_of_mem _ hm))
      simp only [runOrder, hl]
      rw [this, hs]
      simp [hname]

/-- An entry lands in the Outputs Map only for a step whose attempt
succeeded (`run` saves outputs only at the end of a fully successful
iteration). -/
theorem runOrder_outputs_success (env : Env) (nodes : List (String × NodeData)) :
    ∀ (order : List String) (st : RunState) (p : String × List (String × Value)),
      p ∈ (runOrder env nodes order st).outputs →
      p ∈ st.outputs ∨
        (p.1, StepStatus.success) ∈ (runOrder env nodes order st).trace := by
  intro order
  induction order with
  | nil =>
      intro st p hp
      exact Or.inl (by simpa [runOrder] using hp)
  | cons name rest ih =>
      intro st p hp
      cases hl : alookup nodes name with
      | none =>
          rw [runOrder] at hp ⊢
          rw [hl] at hp ⊢
          exact ih st p hp
      | some n =>
          rw [runOrder] at hp ⊢
          rw [hl] at hp ⊢
          rcases ih (runStep env n st) p hp with h1 | h1
          · rcases hr : render_params (buildContext st.outputs st.vars) n.params with e | params
            · left
              simpa [runStep, hr] using h1
            · rcases he : execute env n params st.vars with e | pr
              · left
                simpa [runStep, hr, he] using h1
              · obtain ⟨outs, vars'⟩ := pr
                cases hsk : sameKeySet (outs.map (fun p => p.1)) n.outputs
                · left
                  simpa [runStep, hr, he, hsk] using h1
                · have h2 : p ∈ st.outputs ++ [(n.name, outs)] := by
                    simpa [runStep, hr, he, hsk] using h1
                  rcases List.mem_append.mp h2 with h3 | h3
                  · exact Or.inl h3
                  · right
                    have hp2 : p = (n.name, outs) := by simpa using h3
                    obtain ⟨tr, htr⟩ := runOrder_trace_extend env nodes rest (runStep env n st)
                    rw [htr]
                    subst hp2
                    have hin : (n.name, StepStatus.success) ∈ (runStep env n st).trace := by
                      simp [runStep, hr, he, hsk]
                    exact List.mem_append_left _ hin
          · exact Or.inr h1

/-! ## Composer facts -/

/-- On the self-including flow, each composition level allocates the strictly
longer name `pfx ++ "n"` and recurses under the strictly longer prefix
`pfx ++ "n__"`, so the duplicate-name check never fires and every fuel bound
is exhausted. -/
theorem processFile_selfFS :
    ∀ (fuel : Nat) (pfx : String) (st : ComposeState),
      (∀ s ∈ st.nameSet, s.length < pfx.length + 1) →
      processFile selfFS fuel ("flow.yaml") pfx st =
        Except.error ComposeErr.outOfFuel := by
  intro fuel
  induction fuel with
  | zero =>
      intro pfx st _
      rw [processFile]
  | succ fuel ih =>
      intro pfx st hinv
      rw [processFile]
      simp only [selfFS]
      rw [if_pos trivial]
      have hone : ("n" : String).length = 1 := rfl
      have htwo : ("__" : String).length = 2 := rfl
      have hmem : (pfx ++ "n") ∉ st.nameSet := by
        intro hm
        have hlt := hinv _ hm
        rw [String.length_append, hone] at hlt
        omega
      simp only [processNodes]
      rw [if_neg hmem]
      rw [show ((some ("yml_flow") : Option String) == some ("yml_flow")) = true from rfl]
      rw [if_pos rfl]
      rw [show pathJoin (dirname ("flow.yaml")) "flow.yaml" = "flow.yaml" from rfl]
      have hinv' : ∀ s ∈ (st.nameSet ++ [pfx ++ "n"]),
          s.length < (pfx ++ "n" ++ "__").length + 1 := by
        intro s hs
        rw [String.length_append, String.length_append, hone, htwo]
        rcases List.mem_append.mp hs with h1 | h1
        · have := hinv _ h1
          omega
        · rw [List.mem_singleton.mp h1]
          rw [String.length_append, hone]
          omega
      have hrec := ih ((pfx ++ "n") ++ "__")
        ({ st with nameSet := st.nameSet ++ [pfx ++ "n"] }) (by simpa using hinv')
      rw [hrec]

/-! ## Claims -/

/-- C1: a parameter value that is exactly one `\x7b\x7b name \x7d\x7d` or
`\x7b\x7b name.field \x7d\x7d` reference resolves to the referenced value from the
resolution context (Outputs Map and Variable Store) with its native type
unchanged; in particular, in Scenario A, step `A` producing `\x7bresult: 5\x7d`
referenced by `B`'s parameter `x = "\x7b\x7b A.result \x7d\x7d"` makes `B` run with the
integer `5`, and the recorded `Outputs[B]` exhibits it. -/
theorem whole_reference_resolves_native
    (outs : List (String × List (String × Value))) (vars : List (String × Value))
    (k s name : String) (v : Value)
    (hm : simple_var_match s = some name)
    (hr : resolvePath (buildContext outs vars) (pySplitDot name) = some v) :
    renderValue (buildContext outs vars) (.vstr s) = Except.ok v ∧
    render_params (buildContext outs vars) [(k, .vstr s)] = Except.ok [(k, v)] ∧
    genflowRun envD [nodeSA, nodeSB] = Except.ok
      { outputs := [("A", [("result", Value.vint 5)]), ("B", [("y", Value.vint 5)])],
        vars := [],
        trace := [("A", .success), ("B", .success)] } := by
  refine ⟨?_, ?_, rfl⟩
  · simp only [renderValue, hm, hr]
  · simp only [render_params, renderValue, hm, hr]

/-- C1 witness: Scenario A's reference `\x7b\x7b A.result \x7d\x7d` against the Outputs
Map entry `A ↦ \x7bresult: 5\x7d` resolves to the integer `5`. -/
theorem whole_reference_resolves_native_witness :
    renderValue (buildContext [("A", [("result", Value.vint 5)])] [])
        (.vstr ("\x7b\x7b A.result \x7d\x7d")) = Except.ok (Value.vint 5) ∧
    render_params (buildContext [("A", [("result", Value.vint 5)])] [])
        [("x", .vstr ("\x7b\x7b A.result \x7d\x7d"))] = Except.ok [("x", Value.vint 5)] ∧
    genflowRun envD [nodeSA, nodeSB] = Except.ok
      { outputs := [("A", [("result", Value.vint 5)]), ("B", [("y", Value.vint 5)])],
        vars := [],
        trace := [("A", .success), ("B", .success)] } :=
  whole_reference_resolves_native [("A", [("result", Value.vint 5)])] [] "x"
    "\x7b\x7b A.result \x7d\x7d" "A.result" (Value.vint 5) rfl rfl

/-- C4 counterexample: in Scenario C (set-variable `X` producing `limit`,
get-variable `Y` with `variable_name = limit`), the derived graph contains no
edge at all — in particular not the claimed edge `X → Y` — because
`get_dependencies` has no branch for the static `variable_name` of a
`get_variable` node. -/
theorem scenarioC_no_edge_inserted :
    (parse_yaml [nodeX, nodeY]).map (fun f => f.graph.edges) =
      Except.ok ([] : List (String × String)) := rfl

/-- C4 (amended): the graph builder inserts no edge for a get-variable
step's static `variable_name` (a parameterless get-variable step has no
dependencies at all); in Scenario C the edge set is empty, yet because
execution order breaks ties by declaration order, `X` still runs before `Y`
and the run yields `Outputs[Y] = \x7bvalue: 10\x7d` with both steps succeeding. -/
theorem get_variable_static_name_creates_no_edge
    (env : Env) (n : NodeData)
    (ht : n.type = "get_variable") (hp : n.params = []) :
    get_dependencies n = [] ∧
    (parse_yaml [nodeX, nodeY]).map (fun f => f.graph.edges) =
      Except.ok ([] : List (String × String)) ∧
    genflowRun env [nodeX, nodeY] = Except.ok
      { outputs := [("X", []), ("Y", [("value", Value.vint 10)])],
        vars := [("limit", Value.vint 10)],
        trace := [("X", .success), ("Y", .success)] } := by
  refine ⟨?_, rfl, rfl⟩
  simp [get_dependencies, ht, hp]

/-- C4 witness: Scenario C's get-variable step `Y` has no dependencies, and
the run nevertheless records `Outputs[Y] = \x7bvalue: 10\x7d`. -/
theorem get_variable_static_name_creates_no_edge_witness :
    get_dependencies nodeY = [] ∧
    (parse_yaml [nodeX, nodeY]).map (fun f => f.graph.edges) =
      Except.ok ([] : List (String × String)) ∧
    genflowRun envD [nodeX, nodeY] = Except.ok
      { outputs := [("X", []), ("Y", [("value", Value.vint 10)])],
        vars := [("limit", Value.vint 10)],
        trace := [("X", .success), ("Y", .success)] } :=
  get_variable_static_name_creates_no_edge envD nodeY rfl rfl

/-- C6: a step that depends on a failed step `F` (which has no Outputs-Map
entry) itself fails at parameter-resolution time because its reference into
`F` cannot be found, and it is attempted and reported individually rather
than pre-emptively skipped.  This holds whether the reference is the entire
parameter value (the strict whole-value path raises "not found in context")
or embedded within surrounding text (the Jinja2 walk raises
`UndefinedError` on attribute access into the default `Undefined`).  In the
scenario, `F` fails with the output-contract violation and both dependents,
`S` (whole-value `\x7b\x7b F.b \x7d\x7d`) and `S2` (embedded `val: \x7b\x7b F.b \x7d\x7d`),
are attempted and marked resolution-failed, with no Outputs-Map entries. -/
theorem dependent_of_failed_step_fails_resolution
    (ctx : List (String × Value)) (s name p q : String) (rest : List String)
    (hm : simple_var_match s = some name)
    (hr : resolvePath ctx (pySplitDot name) = none)
    (hp : alookup ctx p = none) :
    renderValue ctx (.vstr s) =
      Except.error ("Variable '" ++ name ++ "' not found in context.") ∧
    jinja_resolve ctx (p :: q :: rest) =
      Except.error ("'" ++ p ++ "' is undefined") ∧
    genflowRun envD [nodeF, nodeS, nodeS2] = Except.ok
      { outputs := [], vars := [],
        trace := [("F", .execFailed ("Function 'f' outputs do not match expected outputs.")),
                  ("S", .renderFailed ("Variable 'F.b' not found in context.")),
                  ("S2", .renderFailed ("'F' is undefined"))] } := by
  refine ⟨?_, ?_, rfl⟩
  · simp only [renderValue, hm, hr]
  · rw [jinja_resolve, hp]
    rfl

/-- C6 witness: against the resolution context of a run where `F` recorded
no outputs, the whole-value reference `\x7b\x7b F.b \x7d\x7d` fails with the
"not found" resolution error, and the embedded path `F.b` fails the Jinja2
walk with `UndefinedError`. -/
theorem dependent_of_failed_step_fails_resolution_witness :
    renderValue (buildContext [] []) (.vstr ("\x7b\x7b F.b \x7d\x7d")) =
      Except.error ("Variable 'F.b' not found in context.") ∧
    jinja_resolve (buildContext [] []) ["F", "b"] =
      Except.error ("'F' is undefined") ∧
    genflowRun envD [nodeF, nodeS, nodeS2] = Except.ok
      { outputs := [], vars := [],
        trace := [("F", .execFailed ("Function 'f' outputs do not match expected outputs.")),
                  ("S", .renderFailed ("Variable 'F.b' not found in context.")),
                  ("S2", .renderFailed ("'F' is undefined"))] } :=
  dependent_of_failed_step_fails_resolution (buildContext [] [])
    ("\x7b\x7b F.b \x7d\x7d") ("F.b") ("F") ("b") [] rfl rfl rfl

/-- C7 counterexample: a sequence parameter holding an embedded reference is
returned verbatim by parameter resolution — the reference
`\x7b\x7b A.result \x7d\x7d` inside the list is not substituted with `5`. -/
theorem list_param_passed_verbatim :
    render_params (buildContext [("A", [("result", Value.vint 5)])] [])
        [("x", Value.vlist [Value.vstr ("\x7b\x7b A.result \x7d\x7d")])] =
      Except.ok [("x", Value.vlist [Value.vstr ("\x7b\x7b A.result \x7d\x7d")])] ∧
    render_params (buildContext [("A", [("result", Value.vint 5)])] [])
        [("x", Value.vlist [Value.vstr ("\x7b\x7b A.result \x7d\x7d")])] ≠
      Except.ok [("x", Value.vlist [Value.vint 5])] := by
  have h1 : render_params (buildContext [("A", [("result", Value.vint 5)])] [])
      [("x", Value.vlist [Value.vstr ("\x7b\x7b A.result \x7d\x7d")])] =
      Except.ok [("x", Value.vlist [Value.vstr ("\x7b\x7b A.result \x7d\x7d")])] := rfl
  refine ⟨h1, ?_⟩
  intro h
  rw [h1] at h
  simp at h

/-- C7 (amended): parameter resolution does not recurse into sequences or
mappings — every non-string parameter value (list, dict, int) is used as is,
references inside it left verbatim; only top-level string parameters are
resolved. -/
theorem nonstring_params_used_as_is (ctx : List (String × Value)) (k : String)
    (xs : List Value) (fs : List (String × Value)) (n : Int) :
    renderValue ctx (.vlist xs) = Except.ok (.vlist xs) ∧
    renderValue ctx (.vdict fs) = Except.ok (.vdict fs) ∧
    renderValue ctx (.vint n) = Except.ok (.vint n) ∧
    render_params ctx [(k, .vlist xs)] = Except.ok [(k, .vlist xs)] :=
  ⟨rfl, rfl, rfl, rfl⟩

/-- C10: a variable stored as `None` is indistinguishable from an absent
one: both a get-variable step and a get-variables-batch entry reading it
fail with the same "variable not found" error they produce when the variable
was never set. -/
theorem none_valued_variable_reads_as_unset (n : NodeData) (vname out : String)
    (vars vars' : List (String × Value))
    (hv : n.variable_name = some vname)
    (hset : alookup vars vname = some Value.vnull)
    (hunset : alookup vars' vname = none) :
    execute_get_variable n vars =
      Except.error ("Variable '" ++ vname ++ "' not found.") ∧
    execute_get_variable n vars = execute_get_variable n vars' ∧
    execute_get_variables vars [(out, vname)] =
      Except.error ("Variable '" ++ vname ++ "' not found.") ∧
    execute_get_variables vars [(out, vname)] =
      execute_get_variables vars' [(out, vname)] := by
  refine ⟨?_, ?_, ?_, ?_⟩ <;>
    simp only [execute_get_variable, execute_get_variables, hv, hset, hunset]

/-- C10 witness: storing `None` under `limit` makes Scenario C's
get-variable step fail exactly as on the empty store. -/
theorem none_valued_variable_reads_as_unset_witness :
    execute_get_variable nodeY [("limit", Value.vnull)] =
      Except.error ("Variable 'limit' not found.") ∧
    execute_get_variable nodeY [("limit", Value.vnull)] =
      execute_get_variable nodeY [] ∧
    execute_get_variables [("limit", Value.vnull)] [("value", "limit")] =
      Except.error ("Variable 'limit' not found.") ∧
    execute_get_variables [("limit", Value.vnull)] [("value", "limit")] =
      execute_get_variables [] [("value", "limit")] :=
  none_valued_variable_reads_as_unset nodeY ("limit") "value"
    [("limit", Value.vnull)] [] rfl rfl rfl

/-- C5: a function-call step whose function returns a mapping with a key set
different from the declared outputs fails at dispatch with the
output-contract violation; an Outputs-Map entry exists only for steps whose
attempt succeeded, so the failed step records none; and in Scenario D the
step `F` (declares `a, b`, returns only `\x7ba: 1\x7d`) is marked failed with no
Outputs entry, while the downstream `S` referencing `\x7b\x7b F.b \x7d\x7d` fails at
resolution with the reference-not-found error. -/
theorem output_contract_violation_fails_step :
    (∀ (env : Env) (n : NodeData) (fname : String)
       (f : List (String × Value) → Except String Value)
       (params fields vars : List (String × Value)),
       n.type = "function_call" → n.function = some fname →
       env.funcs fname = some f → f params = Except.ok (Value.vdict fields) →
       sameKeySet (fields.map (fun p => p.1)) n.outputs = false →
       execute env n params vars =
         Except.error ("Function '" ++ fname ++
           "' outputs do not match expected outputs.")) ∧
    (∀ (env : Env) (nodes : List (String × NodeData)) (order : List String)
       (st : RunState) (p : String × List (String × Value)),
       p ∈ (runOrder env nodes order st).outputs →
       p ∈ st.outputs ∨
         (p.1, StepStatus.success) ∈ (runOrder env nodes order st).trace) ∧
    genflowRun envD [nodeF, nodeS] = Except.ok
      { outputs := [], vars := [],
        trace := [("F", .execFailed ("Function 'f' outputs do not match expected outputs.")),
                  ("S", .renderFailed ("Variable 'F.b' not found in context."))] } := by
  refine ⟨?_, runOrder_outputs_success, rfl⟩
  intro env n fname f params fields vars hty hfn hf hres hsk
  unfold execute
  rw [hty, if_pos rfl]
  rw [execute_function_call, hfn]
  dsimp only
  rw [hf]
  dsimp only
  rw [hres]
  dsimp only
  rw [hsk]
  rfl

/-- C5 witness: dispatching Scenario D's step `F` against the registry of
`envD` fails with the output-contract violation. -/
theorem output_contract_violation_fails_step_witness :
    execute envD nodeF [] [] =
      Except.error ("Function 'f' outputs do not match expected outputs.") :=
  output_contract_violation_fails_step.1 envD nodeF ("f")
    (fun _ => Except.ok (Value.vdict [("a", Value.vint 1)])) []
    [("a", Value.vint 1)] [] rfl rfl rfl rfl rfl

/-- C8: a flattened step list containing two set-variable steps with the
same `variable_name` is rejected by `parse_yaml` before the graph is built
and before any step executes; consequently a run over such a list aborts
with an error and no step is dispatched. -/
theorem duplicate_variable_producers_rejected
    (yaml l1 l2 l3 : List NodeData) (n1 n2 : NodeData) (v : String)
    (hsplit : yaml = l1 ++ n1 :: l2 ++ n2 :: l3)
    (ht1 : n1.type = "set_variable") (ht2 : n2.type = "set_variable")
    (hv1 : n1.variable_name = some v) (hv2 : n2.variable_name = some v) :
    (∃ e, parse_yaml yaml = Except.error e) ∧
    (∀ env : Env, ∃ e, genflowRun env yaml = Except.error e) := by
  have hmain : ∃ e, parse_yaml yaml = Except.error e := by
    cases hp : parse_yaml yaml with
    | error e => exact ⟨e, rfl⟩
    | ok flow =>
        exfalso
        rw [parse_yaml] at hp
        cases hpn : parseNodes yaml [] [] with
        | error e => rw [hpn] at hp; cases hp
        | ok r =>
            obtain ⟨hnd, -⟩ := parseNodes_setvars yaml [] [] r hpn
            have hle := List.nodup_iff_count_le_one.mp hnd v
            rw [hsplit] at hle
            simp [List.filterMap_append, List.filterMap_cons, ht1, ht2, hv1, hv2,
              List.count_append, List.count_cons] at hle
            omega
  refine ⟨hmain, fun env => ?_⟩
  obtain ⟨e, he⟩ := hmain
  refine ⟨e, ?_⟩
  rw [genflowRun, he]

/-- C8 witness: a list repeating Scenario C's set-variable step is rejected
by parsing. -/
theorem duplicate_variable_producers_rejected_witness :
    ∃ e, parse_yaml [nodeX, nodeX] = Except.error e :=
  (duplicate_variable_producers_rejected [nodeX, nodeX] [] [] [] nodeX nodeX
    ("limit") rfl rfl rfl rfl rfl).1

/-- C3: when the nodes parse and the edge derivation succeeds but the
derived graph has a cycle, `parse_yaml` aborts with the cyclic-dependency
error, so no run state is ever produced: the Outputs Map stays empty and no
step is dispatched. -/
theorem cyclic_graph_aborts_before_execution
    (yaml : List NodeData) (ns : List (String × NodeData))
    (prods : List (String × String)) (g : Graph) (n : String)
    (hpn : parseNodes yaml [] [] = Except.ok (ns, prods))
    (hdg : deriveGraph (ns.map (fun p => p.2)) prods = Except.ok g)
    (hcyc : Relation.TransGen (EdgeRel g.edges) n n) :
    parse_yaml yaml = Except.error ("The execution graph has cycles. Cannot proceed.") ∧
    ∀ env : Env, genflowRun env yaml =
      Except.error ("The execution graph has cycles. Cannot proceed.") := by
  obtain ⟨hname, hnd, hprod⟩ := parseNodes_facts yaml [] [] ns prods hpn
    (by simp) (by simp) (by simp)
  have hmapname : (ns.map (fun p => p.2)).map NodeData.name = ns.map Prod.fst := by
    rw [List.map_map]
    exact List.map_congr_left (fun p hp => hname p hp)
  have hnd' : ((ns.map (fun p => p.2)).map NodeData.name).Nodup := by
    rw [hmapname]; exact hnd
  have hp' : ∀ q ∈ prods,
      (q : String × String).2 ∈ (ns.map (fun p => p.2)).map NodeData.name := by
    rw [hmapname]; exact hprod
  obtain ⟨hgn, hwf⟩ := deriveGraph_facts _ prods g hdg hnd' hp'
  have htopo : topologicalSort g = none := by
    cases ht : topologicalSort g with
    | none => rfl
    | some order =>
        exact absurd hcyc (acyclic_of_topologicalSort g order ht hwf n)
  have hbg : build_graph (ns.map (fun p => p.2)) prods =
      Except.error ("The execution graph has cycles. Cannot proceed.") := by
    rw [build_graph, hdg]
    dsimp only
    rw [htopo]
    rfl
  have hpy : parse_yaml yaml =
      Except.error ("The execution graph has cycles. Cannot proceed.") := by
    rw [parse_yaml, hpn]
    dsimp only
    rw [hbg]
  refine ⟨hpy, fun env => ?_⟩
  rw [genflowRun, hpy]

/-- C3 witness: Scenario B (steps `A` and `B` referencing each other)
aborts `parse_yaml` with the cyclic-dependency error. -/
theorem cyclic_graph_aborts_before_execution_witness :
    parse_yaml [nodeA, nodeB] =
      Except.error ("The execution graph has cycles. Cannot proceed.") :=
  (cyclic_graph_aborts_before_execution [nodeA, nodeB]
    [("A", nodeA), ("B", nodeB)] []
    ⟨["A", "B"], [("B", "A"), ("A", "B")]⟩ "A" rfl rfl
    (Relation.TransGen.head (b := "B") (by simp [EdgeRel])
      (Relation.TransGen.single (by simp [EdgeRel])))).1

/-- C2: for every flattened step list whose parsed nodes and derived
dependency graph are acyclic, the run obtains a topological order covering
every step exactly once (the order is a permutation of the duplicate-free
node set), every edge's source precedes its target, and — for any behavior
environment, i.e. regardless of how many steps fail — the run attempts
exactly the steps of that order, in that order, and completes with the
resulting state. -/
theorem acyclic_run_attempts_each_step_once
    (yaml : List NodeData) (env : Env) (ns : List (String × NodeData))
    (prods : List (String × String)) (g : Graph)
    (hpn : parseNodes yaml [] [] = Except.ok (ns, prods))
    (hdg : deriveGraph (ns.map (fun p => p.2)) prods = Except.ok g)
    (hacyc : Acyclic g.edges) :
    ∃ order : List String,
      topologicalSort g = some order ∧
      g.nodes.Perm order ∧
      g.nodes.Nodup ∧
      (∀ u v, (u, v) ∈ g.edges → order.indexOf u < order.indexOf v) ∧
      ((runOrder env ns order ⟨[], [], []⟩).trace).map Prod.fst = order ∧
      genflowRun env yaml = Except.ok (runOrder env ns order ⟨[], [], []⟩) := by
  obtain ⟨hname, hnd, hprod⟩ := parseNodes_facts yaml [] [] ns prods hpn
    (by simp) (by simp) (by simp)
  have hmapname : (ns.map (fun p => p.2)).map NodeData.name = ns.map Prod.fst := by
    rw [List.map_map]
    exact List.map_congr_left (fun p hp => hname p hp)
  have hnd' : ((ns.map (fun p => p.2)).map NodeData.name).Nodup := by
    rw [hmapname]; exact hnd
  have hp' : ∀ q ∈ prods,
      (q : String × String).2 ∈ (ns.map (fun p => p.2)).map NodeData.name := by
    rw [hmapname]; exact hprod
  obtain ⟨hgn, hwf⟩ := deriveGraph_facts _ prods g hdg hnd' hp'
  have hgn' : g.nodes = ns.map Prod.fst := by rw [hgn, hmapname]
  have hsome : (topologicalSort g).isSome := by
    rw [topologicalSort]
    exact topoAux_complete g.edges hacyc g.nodes.length g.nodes (le_refl _)
  obtain ⟨order, horder⟩ := Option.isSome_iff_exists.mp hsome
  have horder' : topoAux g.edges g.nodes.length g.nodes = some order := by
    rw [topologicalSort] at horder
    exact horder
  have hperm : g.nodes.Perm order :=
    topoAux_perm g.edges g.nodes.length g.nodes order (le_refl _) horder'
  have hnodesnd : g.nodes.Nodup := by rw [hgn']; exact hnd
  have hedges : ∀ u v, (u, v) ∈ g.edges → order.indexOf u < order.indexOf v := by
    intro u v huv
    exact topoAux_edge_indexOf g.edges g.nodes.length g.nodes order (le_refl _)
      horder' u v huv (hwf _ huv).1 (hwf _ huv).2
  have hall : ∀ name ∈ order, ∃ n, alookup ns name = some n ∧ NodeData.name n = name := by
    intro name hmem
    have : name ∈ g.nodes := hperm.mem_iff.mpr hmem
    rw [hgn'] at this
    obtain ⟨p, hp, hp1⟩ := List.mem_map.mp this
    refine ⟨p.2, ?_, ?_⟩
    · exact alookup_mem_nodup hnd (by rw [← hp1]; simpa using hp)
    · rw [hname p hp, hp1]
  have htrace : ((runOrder env ns order ⟨[], [], []⟩).trace).map Prod.fst = order := by
    rw [runOrder_trace_names env ns order ⟨[], [], []⟩ hall]
    rfl
  have hbuild : build_graph (ns.map (fun p => p.2)) prods = Except.ok g := by
    rw [build_graph, hdg]
    simp [horder]
  have hpy : parse_yaml yaml = Except.ok ⟨ns, prods, g⟩ := by
    rw [parse_yaml, hpn]
    simp [hbuild]
  have hrun : genflowRun env yaml = Except.ok (runOrder env ns order ⟨[], [], []⟩) := by
    rw [genflowRun, hpy]
    simp [horder]
  exact ⟨order, horder, hperm, hnodesnd, hedges, htrace, hrun⟩

/-- C2 witness: Scenario D's two-step flow (edge `F → S`) run under `envD`:
the order `[F, S]` covers both steps once, respects the edge, and the run
attempts exactly `F` then `S`. -/
theorem acyclic_run_attempts_each_step_once_witness :
    ∃ order : List String,
      topologicalSort ⟨["F", "S"], [("F", "S")]⟩ = some order ∧
      (Graph.nodes ⟨["F", "S"], [("F", "S")]⟩).Perm order ∧
      (Graph.nodes ⟨["F", "S"], [("F", "S")]⟩).Nodup ∧
      (∀ u v, (u, v) ∈ Graph.edges ⟨["F", "S"], [("F", "S")]⟩ →
        order.indexOf u < order.indexOf v) ∧
      ((runOrder envD [("F", nodeF), ("S", nodeS)] order ⟨[], [], []⟩).trace).map
        Prod.fst = order ∧
      genflowRun envD [nodeF, nodeS] =
        Except.ok (runOrder envD [("F", nodeF), ("S", nodeS)] order ⟨[], [], []⟩) :=
  acyclic_run_attempts_each_step_once [nodeF, nodeS] envD
    [("F", nodeF), ("S", nodeS)] [] ⟨["F", "S"], [("F", "S")]⟩ rfl rfl
    (acyclic_of_topologicalSort ⟨["F", "S"], [("F", "S")]⟩ ["F", "S"] rfl
      (by decide))

/-- C9: the composer does not detect a flow that includes itself: each
level re-prefixes the node name, the duplicate-name check never fires, and
the recursion never completes — `processFile` on the self-including
`flow.yaml` exhausts every fuel bound instead of reporting a composition
error. -/
theorem self_including_flow_exhausts_all_fuel :
    ∀ fuel : Nat, processFile selfFS fuel ("flow.yaml") "" ⟨[], []⟩ =
      Except.error ComposeErr.outOfFuel :=
  fun fuel => processFile_selfFS fuel ("") ⟨[], []⟩ (by simp)
